import Mathlib

/-
Verification of the core subsystem of annatomic: the background job
executor (`src/app/job_executor.rs`), the single-slot corpus cache
(`src/app/project/cache.rs`) and the project orchestration with its
diff-based undo history (`src/app/project.rs`).

The Rust `BTreeMap<String, _>` containers used by the executor and the
corpus registry are modelled as key-sorted association lists with unique
keys (`mapInsert`, `mapRemove`, `mapLookup`, well-formedness `MapWF`).
-/

/-- Entry model of `BTreeMap<String, α>::insert`: insert into a key-sorted
association list, replacing an existing binding of the same key. -/
def mapInsert {α : Type} (k : String) (v : α) : List (String × α) → List (String × α)
  | [] => [(k, v)]
  | (k', v') :: rest =>
    if k < k' then (k, v) :: (k', v') :: rest
    else if k = k' then (k, v) :: rest
    else (k', v') :: mapInsert k v rest

/-- Entry model of `BTreeMap::remove`: drop the binding of key `k`. -/
def mapRemove {α : Type} (k : String) : List (String × α) → List (String × α)
  | [] => []
  | (k', v') :: rest => if k = k' then rest else (k', v') :: mapRemove k rest

/-- Entry model of `BTreeMap::get`. -/
def mapLookup {α : Type} (k : String) : List (String × α) → Option α
  | [] => none
  | (k', v') :: rest => if k = k' then some v' else mapLookup k rest

/-- Well-formedness of the association-list model: keys strictly ascending,
as maintained by a `BTreeMap`. -/
def MapWF {α : Type} (l : List (String × α)) : Prop :=
  l.Pairwise (fun a b => a.1 < b.1)

theorem mapWF_nil {α : Type} : MapWF ([] : List (String × α)) := List.Pairwise.nil

theorem mem_mapInsert {α : Type} {l : List (String × α)} {k : String} {v : α}
    {e : String × α} (h : e ∈ mapInsert k v l) : e = (k, v) ∨ e ∈ l := by
  induction l with
  | nil => simpa [mapInsert] using h
  | cons hd tl ih =>
    simp only [mapInsert] at h
    split at h
    · simpa using h
    · split at h
      · rcases List.mem_cons.mp h with h1 | h1
        · exact Or.inl h1
        · exact Or.inr (List.mem_cons_of_mem _ h1)
      · rcases List.mem_cons.mp h with h1 | h1
        · exact Or.inr (by simp [h1])
        · rcases ih h1 with h2 | h2
          · exact Or.inl h2
          · exact Or.inr (List.mem_cons_of_mem _ h2)

theorem mapWF_mapInsert {α : Type} {l : List (String × α)} (k : String) (v : α)
    (h : MapWF l) : MapWF (mapInsert k v l) := by
  induction l with
  | nil => simp [mapInsert, MapWF]
  | cons hd tl ih =>
    rcases List.pairwise_cons.mp h with ⟨hhd, htl⟩
    simp only [mapInsert]
    split
    · rename_i hlt
      refine List.pairwise_cons.mpr ⟨?_, h⟩
      intro e he
      rcases List.mem_cons.mp he with h1 | h1
      · simpa [h1] using hlt
      · exact lt_trans hlt (hhd e h1)
    · split
      · rename_i hne heq
        refine List.pairwise_cons.mpr ⟨?_, htl⟩
        intro e he
        rw [heq]
        exact hhd e he
      · rename_i hne1 hne2
        refine List.pairwise_cons.mpr ⟨?_, ih htl⟩
        intro e he
        rcases mem_mapInsert he with h1 | h1
        · have : hd.1 < k := by
            rcases lt_trichotomy k hd.1 with h2 | h2 | h2
            · exact absurd h2 hne1
            · exact absurd h2 hne2
            · exact h2
          simpa [h1] using this
        · exact hhd e h1

theorem mapRemove_sublist {α : Type} (k : String) (l : List (String × α)) :
    (mapRemove k l).Sublist l := by
  induction l with
  | nil => simp [mapRemove]
  | cons hd tl ih =>
    simp only [mapRemove]
    split
    · exact List.sublist_cons_self hd tl
    · exact List.Sublist.cons₂ hd ih

theorem mapWF_mapRemove {α : Type} {l : List (String × α)} (k : String)
    (h : MapWF l) : MapWF (mapRemove k l) :=
  List.Pairwise.sublist (mapRemove_sublist k l) h

theorem mapLookup_mapInsert_self {α : Type} (l : List (String × α)) (k : String) (v : α) :
    mapLookup k (mapInsert k v l) = some v := by
  induction l with
  | nil => simp [mapInsert, mapLookup]
  | cons hd tl ih =>
    simp only [mapInsert]
    split
    · simp [mapLookup]
    · split
      · simp [mapLookup]
      · rename_i hne1 hne2
        simp [mapLookup, hne2, ih]

theorem mapLookup_mapInsert_ne {α : Type} (l : List (String × α)) {k k' : String} (v : α)
    (h : k' ≠ k) : mapLookup k' (mapInsert k v l) = mapLookup k' l := by
  induction l with
  | nil => simp [mapInsert, mapLookup, h]
  | cons hd tl ih =>
    simp only [mapInsert]
    split
    · simp [mapLookup, h]
    · split
      · rename_i hne1 heq
        by_cases hk : k' = hd.1
        · exact absurd (heq ▸ hk) h
        · simp [mapLookup, h, heq ▸ hk, hk]
      · by_cases hk : k' = hd.1
        · simp [mapLookup, hk]
        · simp [mapLookup, hk, ih]

theorem mapLookup_mapRemove_ne {α : Type} (l : List (String × α)) {k k' : String}
    (h : k' ≠ k) : mapLookup k' (mapRemove k l) = mapLookup k' l := by
  induction l with
  | nil => simp [mapRemove]
  | cons hd tl ih =>
    simp only [mapRemove]
    split
    · rename_i heq
      have : k' ≠ hd.1 := by
        intro hk
        exact h (hk.trans heq.symm)
      simp [mapLookup, this]
    · by_cases hk : k' = hd.1
      · simp [mapLookup, hk]
      · simp [mapLookup, hk, ih]

theorem mapLookup_eq_none {α : Type} {l : List (String × α)} {k : String}
    (h : ∀ e ∈ l, e.1 ≠ k) : mapLookup k l = none := by
  induction l with
  | nil => simp [mapLookup]
  | cons hd tl ih =>
    have hhd : k ≠ hd.1 := fun hk => (h hd (by simp)) hk.symm
    simp only [mapLookup, if_neg hhd]
    exact ih (fun e he => h e (List.mem_cons_of_mem _ he))

theorem mapLookup_mapRemove_self {α : Type} {l : List (String × α)} (k : String)
    (h : MapWF l) : mapLookup k (mapRemove k l) = none := by
  induction l with
  | nil => simp [mapRemove, mapLookup]
  | cons hd tl ih =>
    rcases List.pairwise_cons.mp h with ⟨hhd, htl⟩
    simp only [mapRemove]
    split
    · rename_i heq
      refine mapLookup_eq_none ?_
      intro e he
      have := hhd e he
      intro hk
      rw [hk, ← heq] at this
      exact lt_irrefl _ this
    · rename_i hne
      simp [mapLookup, fun h => hne (h : k = hd.1), ih htl]

theorem mapLookup_of_mem {α : Type} {l : List (String × α)} {e : String × α}
    (hwf : MapWF l) (h : e ∈ l) : mapLookup e.1 l = some e.2 := by
  induction l with
  | nil => simp at h
  | cons hd tl ih =>
    rcases List.pairwise_cons.mp hwf with ⟨hhd, htl⟩
    rcases List.mem_cons.mp h with h1 | h1
    · simp [mapLookup, h1]
    · have hne : e.1 ≠ hd.1 := fun hk => absurd (hk ▸ hhd e h1) (lt_irrefl _)
      simp [mapLookup, hne, ih htl h1]

theorem mem_of_mapLookup {α : Type} {l : List (String × α)} {k : String} {v : α}
    (h : mapLookup k l = some v) : (k, v) ∈ l := by
  induction l with
  | nil => simp [mapLookup] at h
  | cons hd tl ih =>
    simp only [mapLookup] at h
    split at h
    · rename_i heq
      simp only [Option.some.injEq] at h
      subst heq
      subst h
      simp
    · exact List.mem_cons_of_mem _ (ih h)

/-- Number of entries of an association list whose value is the job id `id`. -/
def valCount (id : Nat) (l : List (String × Nat)) : Nat :=
  l.countP (fun e => e.2 == id)

theorem valCount_eq_zero {l : List (String × Nat)} {id : Nat} (hwf : MapWF l)
    (h : ∀ t, mapLookup t l ≠ some id) : valCount id l = 0 := by
  refine List.countP_eq_zero.mpr ?_
  intro e he
  simp only [beq_iff_eq, decide_eq_true_eq]
  intro hid
  exact h e.1 (by rw [mapLookup_of_mem hwf he, hid])

theorem valCount_eq_one {l : List (String × Nat)} {id : Nat} {t₀ : String} (hwf : MapWF l)
    (h₀ : mapLookup t₀ l = some id) (huniq : ∀ t, mapLookup t l = some id → t = t₀) :
    valCount id l = 1 := by
  induction l with
  | nil => simp [mapLookup] at h₀
  | cons hd tl ih =>
    rcases List.pairwise_cons.mp hwf with ⟨hhd, htl⟩
    by_cases hv : hd.2 = id
    · have hlk : mapLookup hd.1 (hd :: tl) = some id := by
        simp [mapLookup, hv]
      have hhd0 : hd.1 = t₀ := huniq hd.1 hlk
      have hzero : valCount id tl = 0 := by
        refine valCount_eq_zero htl ?_
        intro t ht
        have hmem := mem_of_mapLookup ht
        have hgt := hhd _ hmem
        have hlk2 : mapLookup t (hd :: tl) = some id := by
          have hne : t ≠ hd.1 := fun hk => absurd (hk ▸ hgt) (lt_irrefl _)
          simp [mapLookup, hne, ht]
        have := huniq t hlk2
        rw [this, hhd0] at hgt
        exact absurd hgt (lt_irrefl _)
      simp only [valCount, List.countP_cons, hv, beq_self_eq_true]
      simpa [valCount] using hzero
    · have hne : t₀ ≠ hd.1 := by
        intro hk
        rw [hk] at h₀
        simp [mapLookup] at h₀
        exact hv h₀
      have h₀' : mapLookup t₀ tl = some id := by
        simpa [mapLookup, hne] using h₀
      have huniq' : ∀ t, mapLookup t tl = some id → t = t₀ := by
        intro t ht
        have hmem := mem_of_mapLookup ht
        have hgt := hhd _ hmem
        have htn : t ≠ hd.1 := fun hk => absurd (hk ▸ hgt) (lt_irrefl _)
        exact huniq t (by simp [mapLookup, htn, ht])
      simp only [valCount, List.countP_cons]
      have : (hd.2 == id) = false := by simpa using hv
      simp [this]
      simpa [valCount] using ih htl h₀' huniq'

/-
Model of `JobExecutor` (src/app/job_executor.rs).  A job is identified by a
ghost id; its declared `title` and the outcome of its `worker` are fixed up
front by a `JobSpec` environment.  The executor keeps three maps keyed by
title, exactly like the `running`/`finished`/`failed` `BTreeMap`s of the
source, and an observable chronological log of deliveries: an error report
to the notifier for a failed job, or an invocation of the stored
`state_updater` callback for a finished one.
-/

/-- Outcome of a job worker: `Ok(_)` or `Err(_)` in the source. -/
inductive JobResult
  | ok
  | err
  deriving DecidableEq, Repr

/-- Environment entry for one job: its title and its worker's outcome. -/
structure JobSpec where
  title : String
  res : JobResult

/-- Observable delivery: `notifier.report_error` for a failed job, or the
invocation of a finished job's `state_updater` callback. -/
inductive ExecEffect
  | reportError (id : Nat)
  | runCallback (id : Nat)
  deriving DecidableEq, Repr

/-- State of `JobExecutor`: the three title-keyed maps (values are the ghost
ids of the jobs occupying the slots) plus the chronological delivery log. -/
structure ExecState where
  running : List (String × Nat)
  finished : List (String × Nat)
  failed : List (String × Nat)
  log : List ExecEffect
  deriving DecidableEq, Repr

/-- Initial executor state (`JobExecutor::default`). -/
def execInit : ExecState := ⟨[], [], [], []⟩

/-- Model of the `while let Some(x) = m.pop_first()` loops in
`JobExecutor::show`: repeatedly pop the first (smallest-key) entry,
returning the popped entries in pop order together with the map remainder. -/
def popAll {α : Type} : List (String × α) → List (String × α) × List (String × α)
  | [] => ([], [])
  | e :: rest =>
    let r := popAll rest
    (e :: r.1, r.2)

theorem popAll_eq {α : Type} (l : List (String × α)) : popAll l = (l, []) := by
  induction l with
  | nil => rfl
  | cons e rest ih => simp [popAll, ih]

/-- Model of `JobExecutor::show`: first pop and report every failed job,
then pop and invoke every pending success callback, finally return whether
any job is still running. -/
def showExec (s : ExecState) : ExecState × Bool :=
  let failedPop := popAll s.failed
  let log₁ := s.log ++ failedPop.1.map (fun e => ExecEffect.reportError e.2)
  let finishedPop := popAll s.finished
  let log₂ := log₁ ++ finishedPop.1.map (fun e => ExecEffect.runCallback e.2)
  let hasJobs := !s.running.isEmpty
  ({ s with failed := failedPop.2, finished := finishedPop.2, log := log₂ }, hasJobs)

/-- Events of an executor run: `JobExecutor::add` registers job `id` as
running and spawns its worker; the worker of job `id` completing stores the
callback or the error and removes the title from the running set; `drain`
is one call of `JobExecutor::show` from the control thread. -/
inductive Ev
  | add (id : Nat)
  | finish (id : Nat)
  | drain
  deriving DecidableEq, Repr

/-- One step of the executor.  `add` inserts into `running` keyed by title;
a finishing worker inserts its callback (on `Ok`) into `finished` or its
error (on `Err`) into `failed`, keyed by title, and then removes the title
from `running` — exactly the order of the source. -/
def execStep (jobs : Nat → JobSpec) (s : ExecState) : Ev → ExecState
  | .add id => { s with running := mapInsert (jobs id).title id s.running }
  | .finish id =>
    let s' :=
      match (jobs id).res with
      | .ok => { s with finished := mapInsert (jobs id).title id s.finished }
      | .err => { s with failed := mapInsert (jobs id).title id s.failed }
    { s' with running := mapRemove (jobs id).title s'.running }
  | .drain => (showExec s).1

/-- Run a sequence of executor events. -/
def execRun (jobs : Nat → JobSpec) (s : ExecState) : List Ev → ExecState
  | [] => s
  | e :: tr => execRun jobs (execStep jobs s e) tr

/-- Ids of the jobs added during a trace. -/
def addedIds : List Ev → List Nat
  | [] => []
  | .add id :: tr => id :: addedIds tr
  | _ :: tr => addedIds tr

/-- Ids of the jobs whose workers finish during a trace. -/
def finishedIds : List Ev → List Nat
  | [] => []
  | .finish id :: tr => id :: finishedIds tr
  | _ :: tr => finishedIds tr

/-- Sanity discipline of a trace, given the ids already added (`A`) and
already finished (`F`): each id is added at most once, and a worker finishes
exactly the job that was spawned for it (after its `add`, at most once). -/
def traceOK : List Ev → List Nat → List Nat → Bool
  | [], _, _ => true
  | .add id :: tr, A, F => !A.contains id && traceOK tr (id :: A) F
  | .finish id :: tr, A, F => A.contains id && !F.contains id && traceOK tr A (id :: F)
  | .drain :: tr, A, F => traceOK tr A F

/-- Number of success-callback invocations for job `id` in the delivery log. -/
def callbackCount (id : Nat) (log : List ExecEffect) : Nat :=
  log.countP (fun e =>
    match e with
    | .runCallback i => i == id
    | .reportError _ => false)

/-- Number of failure reports for job `id` in the delivery log. -/
def reportCount (id : Nat) (log : List ExecEffect) : Nat :=
  log.countP (fun e =>
    match e with
    | .reportError i => i == id
    | .runCallback _ => false)

/-- Invariant of an executor run.  `A` are the ids added so far, `F ⊆ A`
those whose workers have finished, `D ⊆ F` those whose results have been
delivered by a past drain.  The three maps hold exactly the title-keyed
slots of the not-yet-finished (`running`), finished-but-undelivered
successful (`finished`) and failed (`failed`) jobs, and the log holds one
delivery per delivered job, of the kind matching its result. -/
structure ExecInv (jobs : Nat → JobSpec) (s : ExecState) (A F D : List Nat) : Prop where
  FsubA : ∀ i ∈ F, i ∈ A
  DsubF : ∀ i ∈ D, i ∈ F
  wfRun : MapWF s.running
  wfFin : MapWF s.finished
  wfFail : MapWF s.failed
  runChar : ∀ t id, mapLookup t s.running = some id ↔
    (id ∈ A ∧ id ∉ F ∧ (jobs id).title = t)
  finChar : ∀ t id, mapLookup t s.finished = some id ↔
    (id ∈ F ∧ id ∉ D ∧ (jobs id).res = JobResult.ok ∧ (jobs id).title = t)
  failChar : ∀ t id, mapLookup t s.failed = some id ↔
    (id ∈ F ∧ id ∉ D ∧ (jobs id).res = JobResult.err ∧ (jobs id).title = t)
  logCb : ∀ id, callbackCount id s.log =
    if id ∈ D ∧ (jobs id).res = JobResult.ok then 1 else 0
  logRep : ∀ id, reportCount id s.log =
    if id ∈ D ∧ (jobs id).res = JobResult.err then 1 else 0

theorem execInv_init (jobs : Nat → JobSpec) : ExecInv jobs execInit [] [] [] := by
  refine ⟨?_, ?_, ?_, ?_, ?_, ?_, ?_, ?_, ?_, ?_⟩ <;>
    simp [execInit, mapWF_nil, mapLookup, callbackCount, reportCount]

theorem execInv_add {jobs : Nat → JobSpec} {s : ExecState} {A F D : List Nat} {id : Nat}
    (inv : ExecInv jobs s A F D) (hid : id ∉ A)
    (hinj : ∀ a ∈ id :: A, ∀ b ∈ id :: A, (jobs a).title = (jobs b).title → a = b) :
    ExecInv jobs (execStep jobs s (Ev.add id)) (id :: A) F D := by
  have hrun : (execStep jobs s (Ev.add id)).running
      = mapInsert (jobs id).title id s.running := rfl
  refine ⟨?_, inv.DsubF, ?_, inv.wfFin, inv.wfFail, ?_, inv.finChar, inv.failChar,
    inv.logCb, inv.logRep⟩
  · exact fun i hi => List.mem_cons_of_mem _ (inv.FsubA i hi)
  · rw [hrun]
    exact mapWF_mapInsert _ _ inv.wfRun
  · intro t j
    rw [hrun]
    by_cases ht : t = (jobs id).title
    · subst ht
      constructor
      · intro h
        rw [mapLookup_mapInsert_self] at h
        have hj : j = id := by simpa using h.symm
        subst hj
        exact ⟨List.mem_cons_self _ _, fun hF => hid (inv.FsubA _ hF), rfl⟩
      · rintro ⟨hjA, hjF, hjt⟩
        have hj : j = id := by
          rcases List.mem_cons.mp hjA with h1 | h1
        
          · exact h1
          · exact hinj j (List.mem_cons_of_mem _ h1) id (List.mem_cons_self _ _) hjt
        subst hj
        exact mapLookup_mapInsert_self _ _ _
    · rw [mapLookup_mapInsert_ne _ _ ht]
      rw [inv.runChar t j]
      constructor
      · rintro ⟨hjA, hjF, hjt⟩
        exact ⟨List.mem_cons_of_mem _ hjA, hjF, hjt⟩
      · rintro ⟨hjA, hjF, hjt⟩
        rcases List.mem_cons.mp hjA with h1 | h1
        · subst h1
          exact absurd hjt.symm (by simpa using ht)
        · exact ⟨h1, hjF, hjt⟩

theorem execInv_finish {jobs : Nat → JobSpec} {s : ExecState} {A F D : List Nat} {id : Nat}
    (inv : ExecInv jobs s A F D) (hidA : id ∈ A) (hidF : id ∉ F)
    (hinj : ∀ a ∈ A, ∀ b ∈ A, (jobs a).title = (jobs b).title → a = b) :
    ExecInv jobs (execStep jobs s (Ev.finish id)) A (id :: F) D := by
  have hidD : id ∉ D := fun h => hidF (inv.DsubF _ h)
  cases hres : (jobs id).res with
  | ok =>
    have hstep : execStep jobs s (Ev.finish id) =
        { s with finished := mapInsert (jobs id).title id s.finished,
                 running := mapRemove (jobs id).title s.running } := by
      simp [execStep, hres]
    rw [hstep]
    refine ⟨?_, fun i hi => List.mem_cons_of_mem _ (inv.DsubF i hi), ?_, ?_, inv.wfFail,
      ?_, ?_, ?_, inv.logCb, inv.logRep⟩
    · intro i hi
      rcases List.mem_cons.mp hi with h1 | h1
      · exact h1 ▸ hidA
      · exact inv.FsubA i h1
    · exact mapWF_mapRemove _ inv.wfRun
    · exact mapWF_mapInsert _ _ inv.wfFin
    · intro t j
      by_cases ht : t = (jobs id).title
      · subst ht
        rw [mapLookup_mapRemove_self _ inv.wfRun]
        constructor
        · intro h
          simp at h
        · rintro ⟨hjA, hjF, hjt⟩
          have : j = id := hinj j hjA id hidA hjt
          exact absurd (List.mem_cons_self _ _) (this ▸ hjF)
      · rw [mapLookup_mapRemove_ne _ ht, inv.runChar t j]
        constructor
        · rintro ⟨hjA, hjF, hjt⟩
          refine ⟨hjA, ?_, hjt⟩
          intro hmem
          rcases List.mem_cons.mp hmem with h1 | h1
          · exact ht (h1 ▸ hjt).symm
          · exact hjF h1
        · rintro ⟨hjA, hjF, hjt⟩
          exact ⟨hjA, fun h => hjF (List.mem_cons_of_mem _ h), hjt⟩
    · intro t j
      by_cases ht : t = (jobs id).title
      · subst ht
        constructor
        · intro h
          rw [mapLookup_mapInsert_self] at h
          have hj : j = id := by simpa using h.symm
          subst hj
          exact ⟨List.mem_cons_self _ _, hidD, hres, rfl⟩
        · rintro ⟨hjF, hjD, hjres, hjt⟩
          have hj : j = id := by
            rcases List.mem_cons.mp hjF with h1 | h1
            · exact h1
            · exact hinj j (inv.FsubA _ h1) id hidA hjt
          subst hj
          exact mapLookup_mapInsert_self _ _ _
      · rw [mapLookup_mapInsert_ne _ _ ht, inv.finChar t j]
        constructor
        · rintro ⟨hjF, hjD, hjres, hjt⟩
          exact ⟨List.mem_cons_of_mem _ hjF, hjD, hjres, hjt⟩
        · rintro ⟨hjF, hjD, hjres, hjt⟩
          rcases List.mem_cons.mp hjF with h1 | h1
          · exact absurd (h1 ▸ hjt).symm ht
          · exact ⟨h1, hjD, hjres, hjt⟩
    · intro t j
      rw [inv.failChar t j]
      constructor
      · rintro ⟨hjF, hjD, hjres, hjt⟩
        exact ⟨List.mem_cons_of_mem _ hjF, hjD, hjres, hjt⟩
      · rintro ⟨hjF, hjD, hjres, hjt⟩
        rcases List.mem_cons.mp hjF with h1 | h1
        · subst h1
          rw [hres] at hjres
          exact absurd hjres (by simp)
        · exact ⟨h1, hjD, hjres, hjt⟩
  | err =>
    have hstep : execStep jobs s (Ev.finish id) =
        { s with failed := mapInsert (jobs id).title id s.failed,
                 running := mapRemove (jobs id).title s.running } := by
      simp [execStep, hres]
    rw [hstep]
    refine ⟨?_, fun i hi => List.mem_cons_of_mem _ (inv.DsubF i hi), ?_, inv.wfFin, ?_,
      ?_, ?_, ?_, inv.logCb, inv.logRep⟩
    · intro i hi
      rcases List.mem_cons.mp hi with h1 | h1
      · exact h1 ▸ hidA
      · exact inv.FsubA i h1
    · exact mapWF_mapRemove _ inv.wfRun
    · exact mapWF_mapInsert _ _ inv.wfFail
    · intro t j
      by_cases ht : t = (jobs id).title
      · subst ht
        rw [mapLookup_mapRemove_self _ inv.wfRun]
        constructor
        · intro h
          simp at h
        · rintro ⟨hjA, hjF, hjt⟩
          have : j = id := hinj j hjA id hidA hjt
          exact absurd (List.mem_cons_self _ _) (this ▸ hjF)
      · rw [mapLookup_mapRemove_ne _ ht, inv.runChar t j]
        constructor
        · rintro ⟨hjA, hjF, hjt⟩
          refine ⟨hjA, ?_, hjt⟩
          intro hmem
          rcases List.mem_cons.mp hmem with h1 | h1
          · exact ht (h1 ▸ hjt).symm
          · exact hjF h1
        · rintro ⟨hjA, hjF, hjt⟩
          exact ⟨hjA, fun h => hjF (List.mem_cons_of_mem _ h), hjt⟩
    · intro t j
      rw [inv.finChar t j]
      constructor
      · rintro ⟨hjF, hjD, hjres, hjt⟩
        exact ⟨List.mem_cons_of_mem _ hjF, hjD, hjres, hjt⟩
      · rintro ⟨hjF, hjD, hjres, hjt⟩
        rcases List.mem_cons.mp hjF with h1 | h1
        · subst h1
          rw [hres] at hjres
          exact absurd hjres (by simp)
        · exact ⟨h1, hjD, hjres, hjt⟩
    · intro t j
      by_cases ht : t = (jobs id).title
      · subst ht
        constructor
        · intro h
          rw [mapLookup_mapInsert_self] at h
          have hj : j = id := by simpa using h.symm
          subst hj
          exact ⟨List.mem_cons_self _ _, hidD, hres, rfl⟩
        · rintro ⟨hjF, hjD, hjres, hjt⟩
          have hj : j = id := by
            rcases List.mem_cons.mp hjF with h1 | h1
            · exact h1
            · exact hinj j (inv.FsubA _ h1) id hidA hjt
          subst hj
          exact mapLookup_mapInsert_self _ _ _
      · rw [mapLookup_mapInsert_ne _ _ ht, inv.failChar t j]
        constructor
        · rintro ⟨hjF, hjD, hjres, hjt⟩
          exact ⟨List.mem_cons_of_mem _ hjF, hjD, hjres, hjt⟩
        · rintro ⟨hjF, hjD, hjres, hjt⟩
          rcases List.mem_cons.mp hjF with h1 | h1
          · exact absurd (h1 ▸ hjt).symm ht
          · exact ⟨h1, hjD, hjres, hjt⟩

theorem callbackCount_append (id : Nat) (l₁ l₂ : List ExecEffect) :
    callbackCount id (l₁ ++ l₂) = callbackCount id l₁ + callbackCount id l₂ := by
  simp [callbackCount, List.countP_append]

theorem reportCount_append (id : Nat) (l₁ l₂ : List ExecEffect) :
    reportCount id (l₁ ++ l₂) = reportCount id l₁ + reportCount id l₂ := by
  simp [reportCount, List.countP_append]

theorem callbackCount_map_report (id : Nat) (l : List (String × Nat)) :
    callbackCount id (l.map (fun e => ExecEffect.reportError e.2)) = 0 := by
  simp [callbackCount, List.countP_map, Function.comp_def]

theorem callbackCount_map_callback (id : Nat) (l : List (String × Nat)) :
    callbackCount id (l.map (fun e => ExecEffect.runCallback e.2)) = valCount id l := by
  simp [callbackCount, valCount, List.countP_map, Function.comp_def]

theorem reportCount_map_callback (id : Nat) (l : List (String × Nat)) :
    reportCount id (l.map (fun e => ExecEffect.runCallback e.2)) = 0 := by
  simp [reportCount, List.countP_map, Function.comp_def]

theorem reportCount_map_report (id : Nat) (l : List (String × Nat)) :
    reportCount id (l.map (fun e => ExecEffect.reportError e.2)) = valCount id l := by
  simp [reportCount, valCount, List.countP_map, Function.comp_def]

/-- Log contents after one drain: the previous log, then one error report
per failed job in ascending title order, then one callback invocation per
finished job in ascending title order. -/
def drainedLog (s : ExecState) : List ExecEffect :=
  s.log ++ s.failed.map (fun e => ExecEffect.reportError e.2)
        ++ s.finished.map (fun e => ExecEffect.runCallback e.2)

theorem showExec_eq (s : ExecState) :
    showExec s = ({ s with failed := [], finished := [], log := drainedLog s },
      !s.running.isEmpty) := by
  simp [showExec, popAll_eq, drainedLog]

theorem execInv_drain {jobs : Nat → JobSpec} {s : ExecState} {A F D : List Nat}
    (inv : ExecInv jobs s A F D) :
    ExecInv jobs (execStep jobs s Ev.drain) A F F := by
  have hstep : execStep jobs s Ev.drain =
      { s with failed := [], finished := [], log := drainedLog s } := by
    rw [show execStep jobs s Ev.drain = (showExec s).1 from rfl, showExec_eq]
  rw [hstep]
  refine ⟨inv.FsubA, fun i hi => hi, inv.wfRun, mapWF_nil, mapWF_nil, inv.runChar, ?_, ?_, ?_, ?_⟩
  · intro t j
    simp only [mapLookup]
    constructor
    · intro h
      simp at h
    · rintro ⟨h1, h2, _⟩
      exact absurd h1 h2
  · intro t j
    simp only [mapLookup]
    constructor
    · intro h
      simp at h
    · rintro ⟨h1, h2, _⟩
      exact absurd h1 h2
  · intro id
    rw [show drainedLog s = s.log ++ s.failed.map (fun e => ExecEffect.reportError e.2) ++ s.finished.map (fun e => ExecEffect.runCallback e.2) from rfl]
    rw [callbackCount_append, callbackCount_append, callbackCount_map_report,
      callbackCount_map_callback, inv.logCb id]
    by_cases hok : (jobs id).res = JobResult.ok
    · by_cases hD : id ∈ D
      · have hF : id ∈ F := inv.DsubF _ hD
        have hz : valCount id s.finished = 0 := by
          refine valCount_eq_zero inv.wfFin ?_
          intro t h
          exact absurd hD ((inv.finChar t id).mp h).2.1
        simp [hD, hok, hF, hz]
      · by_cases hF : id ∈ F
        · have ho : valCount id s.finished = 1 := by
            refine valCount_eq_one inv.wfFin ((inv.finChar (jobs id).title id).mpr
              ⟨hF, hD, hok, rfl⟩) ?_
            intro t h
            exact (((inv.finChar t id).mp h).2.2.2).symm
          simp [hD, hok, hF, ho]
        · have hz : valCount id s.finished = 0 := by
            refine valCount_eq_zero inv.wfFin ?_
            intro t h
            exact absurd ((inv.finChar t id).mp h).1 hF
          simp [hD, hok, hF, hz]
    · have hz : valCount id s.finished = 0 := by
        refine valCount_eq_zero inv.wfFin ?_
        intro t h
        exact absurd ((inv.finChar t id).mp h).2.2.1 hok
      simp [hok, hz]
  · intro id
    rw [show drainedLog s = s.log ++ s.failed.map (fun e => ExecEffect.reportError e.2) ++ s.finished.map (fun e => ExecEffect.runCallback e.2) from rfl]
    rw [reportCount_append, reportCount_append, reportCount_map_report,
      reportCount_map_callback, inv.logRep id]
    by_cases herr : (jobs id).res = JobResult.err
    · by_cases hD : id ∈ D
      · have hF : id ∈ F := inv.DsubF _ hD
        have hz : valCount id s.failed = 0 := by
          refine valCount_eq_zero inv.wfFail ?_
          intro t h
          exact absurd hD ((inv.failChar t id).mp h).2.1
        simp [hD, herr, hF, hz]
      · by_cases hF : id ∈ F
        · have ho : valCount id s.failed = 1 := by
            refine valCount_eq_one inv.wfFail ((inv.failChar (jobs id).title id).mpr
              ⟨hF, hD, herr, rfl⟩) ?_
            intro t h
            exact (((inv.failChar t id).mp h).2.2.2).symm
          simp [hD, herr, hF, ho]
        · have hz : valCount id s.failed = 0 := by
            refine valCount_eq_zero inv.wfFail ?_
            intro t h
            exact absurd ((inv.failChar t id).mp h).1 hF
          simp [hD, herr, hF, hz]
    · have hz : valCount id s.failed = 0 := by
        refine valCount_eq_zero inv.wfFail ?_
        intro t h
        exact absurd ((inv.failChar t id).mp h).2.2.1 herr
      simp [herr, hz]

theorem contains_false_not_mem {l : List Nat} {a : Nat} (h : l.contains a = false) :
    a ∉ l := by
  intro hm
  rw [show l.contains a = List.elem a l from rfl, List.elem_iff.mpr hm] at h
  cases h

theorem contains_true_mem {l : List Nat} {a : Nat} (h : l.contains a = true) : a ∈ l :=
  List.elem_iff.mp (show List.elem a l = true from h)

theorem execRun_inv (jobs : Nat → JobSpec) :
    ∀ (tr : List Ev) (s : ExecState) (A F D : List Nat),
      ExecInv jobs s A F D →
      traceOK tr A F = true →
      (∀ a, (a ∈ A ∨ a ∈ addedIds tr) → ∀ b, (b ∈ A ∨ b ∈ addedIds tr) →
        (jobs a).title = (jobs b).title → a = b) →
      ∃ A' F' D', ExecInv jobs (execRun jobs s tr) A' F' D' ∧
        (∀ i, i ∈ A' ↔ (i ∈ A ∨ i ∈ addedIds tr)) ∧
        (∀ i, i ∈ F' ↔ (i ∈ F ∨ i ∈ finishedIds tr)) := by
  intro tr
  induction tr with
  | nil =>
    intro s A F D inv hok hinj
    exact ⟨A, F, D, inv, by simp [addedIds], by simp [finishedIds]⟩
  | cons e tr ih =>
    intro s A F D inv hok hinj
    cases e with
    | add id =>
      simp only [traceOK, Bool.and_eq_true, Bool.not_eq_true'] at hok
      obtain ⟨hid, hok'⟩ := hok
      have hidA : id ∉ A := contains_false_not_mem hid
      have hinj' : ∀ a, (a ∈ id :: A ∨ a ∈ addedIds tr) → ∀ b,
          (b ∈ id :: A ∨ b ∈ addedIds tr) → (jobs a).title = (jobs b).title → a = b := by
        intro a ha b hb
        refine hinj a ?_ b ?_ <;>
          simp only [addedIds, List.mem_cons] at * <;> tauto
      have hinjA : ∀ a ∈ id :: A, ∀ b ∈ id :: A,
          (jobs a).title = (jobs b).title → a = b :=
        fun a ha b hb => hinj' a (Or.inl ha) b (Or.inl hb)
      have inv' := execInv_add inv hidA hinjA
      obtain ⟨A', F', D', hI, hA, hF⟩ := ih _ _ _ _ inv' hok' hinj'
      refine ⟨A', F', D', hI, ?_, hF⟩
      intro i
      rw [hA i]
      simp only [addedIds, List.mem_cons]
      tauto
    | finish id =>
      simp only [traceOK, Bool.and_eq_true, Bool.not_eq_true'] at hok
      obtain ⟨⟨hidA', hidF'⟩, hok'⟩ := hok
      have hidA : id ∈ A := contains_true_mem hidA'
      have hidF : id ∉ F := contains_false_not_mem hidF'
      have hinj' : ∀ a, (a ∈ A ∨ a ∈ addedIds tr) → ∀ b,
          (b ∈ A ∨ b ∈ addedIds tr) → (jobs a).title = (jobs b).title → a = b := by
        intro a ha b hb
        refine hinj a ?_ b ?_ <;>
          simp only [addedIds, List.mem_cons] at * <;> tauto
      have hinjA : ∀ a ∈ A, ∀ b ∈ A, (jobs a).title = (jobs b).title → a = b :=
        fun a ha b hb => hinj' a (Or.inl ha) b (Or.inl hb)
      have inv' := execInv_finish inv hidA hidF hinjA
      obtain ⟨A', F', D', hI, hA, hF⟩ := ih _ _ _ _ inv' hok' hinj'
      refine ⟨A', F', D', hI, hA, ?_⟩
      intro i
      rw [hF i]
      simp only [finishedIds, List.mem_cons]
      tauto
    | drain =>
      simp only [traceOK] at hok
      have inv' := execInv_drain inv
      have hinj' : ∀ a, (a ∈ A ∨ a ∈ addedIds tr) → ∀ b,
          (b ∈ A ∨ b ∈ addedIds tr) → (jobs a).title = (jobs b).title → a = b := by
        intro a ha b hb
        refine hinj a ?_ b ?_ <;>
          simp only [addedIds, List.mem_cons] at * <;> tauto
      obtain ⟨A', F', D', hI, hA, hF⟩ := ih _ _ _ _ inv' hok hinj'
      refine ⟨A', F', D', hI, ?_, ?_⟩
      · intro i
        rw [hA i]
        simp only [addedIds]
      · intro i
        rw [hF i]
        simp only [finishedIds]

theorem execRun_append (jobs : Nat → JobSpec) (s : ExecState) (tr₁ tr₂ : List Ev) :
    execRun jobs s (tr₁ ++ tr₂) = execRun jobs (execRun jobs s tr₁) tr₂ := by
  induction tr₁ generalizing s with
  | nil => rfl
  | cons e tr ih => simp [execRun, ih]

/-- Statement of claim C1 for a fixed job environment and trace: if every
added job's worker eventually finishes and a final drain is performed, then
every added job has been delivered exactly once — one success-callback
invocation if its worker returned `Ok`, one failure report if it returned
`Err`, and no delivery of the other kind. -/
def c1Property (jobs : Nat → JobSpec) (tr : List Ev) : Prop :=
  traceOK tr [] [] = true →
  (∀ id ∈ addedIds tr, id ∈ finishedIds tr) →
  ∀ id ∈ addedIds tr,
    callbackCount id (execRun jobs execInit (tr ++ [Ev.drain])).log
        = (if (jobs id).res = JobResult.ok then 1 else 0) ∧
    reportCount id (execRun jobs execInit (tr ++ [Ev.drain])).log
        = (if (jobs id).res = JobResult.err then 1 else 0)

/-- Job environment for the C1 counterexample: two jobs share the title
`"t"` and both workers succeed. -/
def c1dupJobs : Nat → JobSpec := fun _ => ⟨"t", JobResult.ok⟩

/-- Trace for the C1 counterexample: both same-title jobs are added and
both workers finish before the drain, so the second `finished.insert`
overwrites the first job's pending callback. -/
def c1dupTrace : List Ev := [Ev.add 0, Ev.add 1, Ev.finish 0, Ev.finish 1]

/-- Counterexample to C1: with two jobs added under the same title, job 0's
success callback is never invoked (and no failure is reported for it
either), because the `finished` map is keyed by title and job 1's callback
overwrites job 0's before the drain. -/
theorem c1_counterexample : ¬ c1Property c1dupJobs c1dupTrace := by
  intro h
  have h2 := h (by decide) (by decide) 0 (by decide)
  have h3 : callbackCount 0 (execRun c1dupJobs execInit (c1dupTrace ++ [Ev.drain])).log
      = 0 := by
    simp [c1dupTrace, c1dupJobs, execRun, execStep, showExec, popAll, mapInsert, mapRemove,
      execInit, drainedLog, callbackCount, List.countP_cons, List.countP_nil]
  rw [h2.1] at h3
  simp [c1dupJobs] at h3

/-- Claim C1, amended: provided the added jobs all carry pairwise distinct
titles, every registered job whose worker finishes is, after the final
drain, transitioned out and delivered exactly once — exactly one success
callback invocation if its worker succeeded, exactly one failure report if
it failed, never both and never neither. -/
theorem c1_amended (jobs : Nat → JobSpec) (tr : List Ev)
    (hok : traceOK tr [] [] = true)
    (hcomplete : ∀ id ∈ addedIds tr, id ∈ finishedIds tr)
    (hinj : ∀ a ∈ addedIds tr, ∀ b ∈ addedIds tr,
      (jobs a).title = (jobs b).title → a = b) :
    ∀ id ∈ addedIds tr,
      callbackCount id (execRun jobs execInit (tr ++ [Ev.drain])).log
          = (if (jobs id).res = JobResult.ok then 1 else 0) ∧
      reportCount id (execRun jobs execInit (tr ++ [Ev.drain])).log
          = (if (jobs id).res = JobResult.err then 1 else 0) := by
  intro id hid
  obtain ⟨A', F', D', hI, hA, hF⟩ := execRun_inv jobs tr execInit [] [] []
    (execInv_init jobs) hok
    (by
      intro a ha b hb ht
      have ha' : a ∈ addedIds tr := by
        rcases ha with h | h
        · simp at h
        · exact h
      have hb' : b ∈ addedIds tr := by
        rcases hb with h | h
        · simp at h
        · exact h
      exact hinj a ha' b hb' ht)
  have hfin := execInv_drain hI
  have hidF' : id ∈ F' := (hF id).mpr (Or.inr (hcomplete id hid))
  have hrw : execRun jobs execInit (tr ++ [Ev.drain])
      = execStep jobs (execRun jobs execInit tr) Ev.drain := by
    rw [execRun_append]
    rfl
  rw [hrw]
  constructor
  · rw [hfin.logCb id]
    by_cases hres : (jobs id).res = JobResult.ok
    · simp [hres, hidF']
    · simp [hres]
  · rw [hfin.logRep id]
    by_cases hres : (jobs id).res = JobResult.err
    · simp [hres, hidF']
    · simp [hres]

/-- Job environment for the C1 witness: two jobs with distinct titles, one
succeeding and one failing. -/
def c1okJobs : Nat → JobSpec :=
  fun n => if n = 0 then ⟨"a", JobResult.ok⟩ else ⟨"b", JobResult.err⟩

/-- Trace for the C1 witness: both jobs added, both workers finish. -/
def c1okTrace : List Ev := [Ev.add 0, Ev.add 1, Ev.finish 1, Ev.finish 0]

/-- Witness for the amended C1 at a concrete input. -/
theorem c1_amended_witness :
    callbackCount 0 (execRun c1okJobs execInit (c1okTrace ++ [Ev.drain])).log = 1 ∧
    reportCount 1 (execRun c1okJobs execInit (c1okTrace ++ [Ev.drain])).log = 1 := by
  have h := c1_amended c1okJobs c1okTrace (by decide) (by decide) (by decide)
  constructor
  · exact (h 0 (by decide)).1.trans (by simp [c1okJobs])
  · exact (h 1 (by decide)).2.trans (by simp [c1okJobs])

/-- Claim C9: every invocation of the drain (`JobExecutor::show`) first
pops and reports every queued failed job to the notifier, then pops and
invokes every pending success callback, after which both queues are empty,
the running set is untouched, and the return value is true iff some job is
still in the running set. -/
theorem c9_drain_phases (s : ExecState) :
    showExec s = ({ s with failed := [], finished := [], log := drainedLog s },
      !s.running.isEmpty) ∧
    ((showExec s).2 = true ↔ s.running ≠ []) := by
  refine ⟨showExec_eq s, ?_⟩
  rw [showExec_eq]
  simp

/-
Model of `CorpusCache` (src/app/project/cache.rs).  The cache holds at most
one entry `(location, graph)` behind a lock; graph handles
(`Arc<RwLock<AnnotationGraph>>`) are modelled by ghost ids, so that two
handles denote the identical underlying graph instance iff their ids are
equal.  `load_from_disk` deserializes a fresh graph (a fresh id drawn from
the `nextId` counter) and installs it as the sole cache entry.
-/

/-- State of `CorpusCache`: the single optional `(location, graph)` entry
plus a counter generating ids for freshly loaded graphs. -/
structure CorpusCache where
  entry : Option (String × Nat)
  nextId : Nat
  deriving DecidableEq, Repr

/-- Result of a cache operation: the returned shared graph handle, the
cache state afterwards, and whether disk I/O (a deserialization) happened. -/
structure CacheLookup where
  handle : Nat
  cache : CorpusCache
  loadedFromDisk : Bool
  deriving DecidableEq, Repr

/-- Model of `CorpusCache::load_from_disk`: unconditionally deserialize the
graph at `location` (a fresh graph instance), install it as the sole cache
entry and return its handle. -/
def CorpusCache.load_from_disk (s : CorpusCache) (location : String) : CacheLookup :=
  { handle := s.nextId,
    cache := { entry := some (location, s.nextId), nextId := s.nextId + 1 },
    loadedFromDisk := true }

/-- Model of `CorpusCache::get`: on a hit (cached location equals the
requested one) return a clone of the cached shared handle without I/O;
otherwise evict the old entry (dropped on a separate disposal thread) and
load fresh from disk. -/
def CorpusCache.get (s : CorpusCache) (location : String) : CacheLookup :=
  match s.entry with
  | some (loc, g) =>
    if loc = location then { handle := g, cache := s, loadedFromDisk := false }
    else CorpusCache.load_from_disk { s with entry := none } location
  | none => CorpusCache.load_from_disk s location

/-- Claim C5: two consecutive `CorpusCache.get(loc)` calls with no
intervening call for a different location return the identical underlying
graph instance (equal handles, not a reloaded copy), and the second call
performs no disk I/O; the cache state is also unchanged by the second call. -/
theorem c5_cache_get_hit (s : CorpusCache) (location : String) :
    (CorpusCache.get (CorpusCache.get s location).cache location).handle
        = (CorpusCache.get s location).handle ∧
    (CorpusCache.get (CorpusCache.get s location).cache location).loadedFromDisk = false ∧
    (CorpusCache.get (CorpusCache.get s location).cache location).cache
        = (CorpusCache.get s location).cache := by
  have hentry : (CorpusCache.get s location).cache.entry
      = some (location, (CorpusCache.get s location).handle) := by
    cases hs : s.entry with
    | none => simp [CorpusCache.get, CorpusCache.load_from_disk, hs]
    | some e =>
      obtain ⟨loc, g⟩ := e
      by_cases hloc : loc = location
      · simp [CorpusCache.get, hs, hloc]
      · simp [CorpusCache.get, CorpusCache.load_from_disk, hs, hloc]
  refine ⟨?_, ?_, ?_⟩ <;>
    rw [show CorpusCache.get (CorpusCache.get s location).cache location
      = { handle := (CorpusCache.get s location).handle,
          cache := (CorpusCache.get s location).cache, loadedFromDisk := false } from by
        rw [CorpusCache.get, hentry]
        simp]

/-
Model of `Project` (src/app/project.rs) and its undo history.
-/

/-- Opaque atom standing for a `graphannis` `UpdateEvent` (one atomic graph
mutation); only ordering and equality of events matter here. -/
abbrev UpdateEvent := Nat

/-- Model of `Corpus` (src/app/project.rs): name, storage location and the
ordered diff of update events since the last save.  Equality is field-wise,
as derived by `PartialEq` in the source. -/
structure Corpus where
  name : String
  location : String
  diff_to_last_save : List UpdateEvent
  deriving DecidableEq, Repr

/-- Model of `Corpus::new`: empty diff. -/
def Corpus.new (name location : String) : Corpus :=
  { name := name, location := location, diff_to_last_save := [] }

/-- Modelled from the spec: the undo history used by `Project` is the
`Undoer` utility of an external UI crate whose source is not part of this
repository.  The spec describes it as a bounded sequence of Corpus
snapshots plus a cursor whose `has_undo`/`has_redo` are true iff a valid
neighboring snapshot exists relative to the cursor.  It is represented by
the snapshots up to the cursor (`undos`, most recent first) and the
snapshots past the cursor (`redos`, nearest first), with the depth bound
`maxUndos`.  The source's `default_undoer()` builds a fresh history and
seeds it separately via `add_undo`, so a default history holds no snapshot. -/
structure Undoer where
  maxUndos : Nat
  undos : List Corpus
  redos : List Corpus
  deriving DecidableEq, Repr

/-- Model of `default_undoer()` (src/app/project.rs): a fresh history with
`max_undos = 10` and no snapshots. -/
def default_undoer : Undoer := { maxUndos := 10, undos := [], redos := [] }

/-- Modelled from the spec: `has_undo` is true iff a snapshot strictly
before the cursor exists; the snapshot at the cursor may be the current
state itself, in which case it alone does not make an undo available. -/
def Undoer.has_undo (u : Undoer) (current : Corpus) : Bool :=
  match u.undos with
  | [] => false
  | [s] => decide (s ≠ current)
  | _ :: _ :: _ => true

/-- Modelled from the spec: `has_redo` is true iff a snapshot past the
cursor exists and the current state still equals the cursor snapshot. -/
def Undoer.has_redo (u : Undoer) (current : Corpus) : Bool :=
  decide (u.redos ≠ [] ∧ u.undos.head? = some current)

/-- Modelled from the spec: record a snapshot of the current state at the
cursor (deduplicating against the cursor snapshot) and drop the oldest
snapshots beyond the `maxUndos` bound. -/
def Undoer.add_undo (u : Undoer) (current : Corpus) : Undoer :=
  let undos := if u.undos.head? = some current then u.undos else current :: u.undos
  { u with undos := undos.take u.maxUndos }

/-- Modelled from the spec: move the cursor one step back if available,
remembering the current state as a redo point; returns the snapshot to
restore together with the updated history. -/
def Undoer.undo (u : Undoer) (current : Corpus) : Option Corpus × Undoer :=
  if u.has_undo current then
    let u₁ : Undoer := { u with redos := current :: u.redos }
    let u₂ : Undoer :=
      if u₁.undos.head? = some current then { u₁ with undos := u₁.undos.tail } else u₁
    (u₂.undos.head?, u₂)
  else (none, u)

/-- Modelled from the spec: move the cursor one step forward if available;
if the current state has drifted away from the cursor snapshot the redo
points are stale and are discarded instead. -/
def Undoer.redo (u : Undoer) (current : Corpus) : Option Corpus × Undoer :=
  if u.undos ≠ [] ∧ u.undos.head? ≠ some current then
    (none, { u with redos := [] })
  else
    match u.redos with
    | [] => (none, u)
    | s :: rest => (some s, { u with undos := s :: u.undos, redos := rest })

/-- Kinds of background jobs scheduled by `Project` via `JobExecutor::add`. -/
inductive JobKind
  | updateCorpusStructure
  | changeset (events : List UpdateEvent)
  | deleteDir (location : String)
  | reloadReplay (target : Corpus)
  | exportGraphML (location : String)
  deriving DecidableEq, Repr

/-- Observable side effect of a `Project` method: an error toast raised on
the notifier, a failed job reported by the drain, or a background job
handed to the `JobExecutor`. -/
inductive Effect
  | toastError (msg : String)
  | reportJobError (title : String)
  | job (title : String) (kind : JobKind)
  deriving DecidableEq, Repr

/-- Model of the `Project` struct (src/app/project.rs). -/
structure ProjectState where
  updates_pending : Bool
  selected_corpus : Option Corpus
  scheduled_for_deletion : Option String
  corpus_locations : List (String × String)
  undoer : Undoer
  deriving DecidableEq, Repr

/-- Model of `Project::update_corpus_structure_job`: schedules the
structural-refresh job "Updating corpus selection"; the project state
itself is unchanged. -/
def update_corpus_structure_job (p : ProjectState) : ProjectState × List Effect :=
  (p, [Effect.job "Updating corpus selection" JobKind.updateCorpusStructure])

/-- Model of `Project::select_corpus` past the already-selected guard:
clear the selection; for `Some(name)` resolve the location in the registry
and seed a freshly reset undo history with one snapshot of the new
selection, or raise an error toast if the registry has no entry; finally
schedule the structural-refresh job. -/
def select_corpus_go (p : ProjectState) (selection : Option String) :
    ProjectState × List Effect :=
  let p₁ : ProjectState := { p with selected_corpus := none }
  match selection with
  | some name =>
    match mapLookup name p₁.corpus_locations with
    | some location =>
      let new_selection := Corpus.new name location
      let u := Undoer.add_undo default_undoer new_selection
      update_corpus_structure_job
        { p₁ with undoer := u, selected_corpus := some new_selection }
    | none =>
      let r := update_corpus_structure_job p₁
      (r.1, Effect.toastError ("Missing location for corpus " ++ name) :: r.2)
  | none => update_corpus_structure_job p₁

/-- Model of `Project::select_corpus`: do nothing if the corpus is already
selected, otherwise proceed as `select_corpus_go`. -/
def select_corpus (p : ProjectState) (selection : Option String) :
    ProjectState × List Effect :=
  match p.selected_corpus with
  | some sc => if selection = some sc.name then (p, []) else select_corpus_go p selection
  | none => select_corpus_go p selection

/-- Title of the deletion job, as formatted in `Project::delete_corpus`. -/
def delete_job_title (corpus_name location : String) : String :=
  "Deleting corpus \"" ++ corpus_name ++ "\" from " ++ location

/-- Model of `Project::delete_corpus`: unselect `corpus_name` if it is the
current selection, then remove it from the registry and, if it was
registered, schedule a background job deleting the stored folder. -/
def delete_corpus (p : ProjectState) (corpus_name : String) :
    ProjectState × List Effect :=
  let r₁ :=
    match p.selected_corpus with
    | some selection =>
      if selection.name = corpus_name then select_corpus p none else (p, [])
    | none => (p, [])
  let p₁ := r₁.1
  match mapLookup corpus_name p₁.corpus_locations with
  | some location =>
    let p₂ : ProjectState :=
      { p₁ with corpus_locations := mapRemove corpus_name p₁.corpus_locations,
                scheduled_for_deletion := none }
    (p₂, r₁.2 ++ [Effect.job (delete_job_title corpus_name location)
      (JobKind.deleteDir location)])
  | none => ({ p₁ with scheduled_for_deletion := none }, r₁.2)

/-- Model of the deletion job's `state_updater` (`|_result, _app| {}` in the
source): it does nothing. -/
def delete_corpus_callback (p : ProjectState) : ProjectState := p

/-- Model of `Project::add_changeset`: with a corpus selected, set the
dirty flag `updates_pending` and schedule the "Updating corpus" job whose
worker extracts the ordered events of the update and applies them to the
cached graph; without a selection, do nothing. -/
def add_changeset (p : ProjectState) (update : List UpdateEvent) :
    ProjectState × List Effect :=
  match p.selected_corpus with
  | some _ =>
    ({ p with updates_pending := true },
      [Effect.job "Updating corpus" (JobKind.changeset update)])
  | none => (p, [])

/-- Model of the success callback of the changeset job: append the applied
events to the selected corpus's diff, push the resulting snapshot onto the
undo history, clear the dirty flag, and schedule the structural refresh. -/
def add_changeset_callback (added_events : List UpdateEvent) (p : ProjectState) :
    ProjectState × List Effect :=
  let p₁ :=
    match p.selected_corpus with
    | some selected =>
      let selected' : Corpus :=
        { selected with diff_to_last_save := selected.diff_to_last_save ++ added_events }
      { p with selected_corpus := some selected', undoer := p.undoer.add_undo selected' }
    | none => p
  update_corpus_structure_job { p₁ with updates_pending := false }

/-- Delivery of the changeset job's result by the next drain: on success
the stored callback runs; on failure `JobExecutor::show` only reports the
error to the notifier and the project state is untouched. -/
def deliver_changeset_result (added_events : List UpdateEvent) (success : Bool)
    (p : ProjectState) : ProjectState × List Effect :=
  if success then add_changeset_callback added_events p
  else (p, [Effect.reportJobError "Updating corpus"])

/-- Model of `Project::persist_changes_on_exit`, which runs synchronously
on the control thread: with a corpus selected, set `updates_pending`,
obtain the cached graph and write it back to the baseline storage location,
then reset the undo history to the fresh default.  `persistOk` is the
outcome of the fallible write (`Err` propagates to the caller with `?`,
leaving the state as mutated so far); the returned flag is true iff the
method returned `Ok`. -/
def persist_changes_on_exit (p : ProjectState) (persistOk : Bool) :
    ProjectState × Bool :=
  match p.selected_corpus with
  | some _ =>
    let p₁ : ProjectState := { p with updates_pending := true }
    if persistOk then ({ p₁ with undoer := default_undoer }, true) else (p₁, false)
  | none => (p, true)

/-- Model of `Project::load_after_init` on the start view: if a corpus is
selected (restored from the persisted application state), clear its diff
and seed the undo history with a snapshot of it, then schedule the
structural refresh. -/
def load_after_init (p : ProjectState) : ProjectState × List Effect :=
  match p.selected_corpus with
  | some selection =>
    let selection' : Corpus := { selection with diff_to_last_save := [] }
    update_corpus_structure_job
      { p with selected_corpus := some selection',
               undoer := p.undoer.add_undo selection' }
  | none => update_corpus_structure_job p

/-- Model of `Project::undo`: if a corpus is selected and the history
yields a previous snapshot, make it the selection and schedule the
"Undoing changes" job that reloads the baseline from disk and replays the
snapshot's diff against it. -/
def ProjectState.undo (p : ProjectState) : ProjectState × List Effect :=
  match p.selected_corpus with
  | some selected =>
    let r := p.undoer.undo selected
    match r.1 with
    | some new_state =>
      ({ p with selected_corpus := some new_state, undoer := r.2 },
        [Effect.job "Undoing changes" (JobKind.reloadReplay new_state)])
    | none => ({ p with undoer := r.2 }, [])
  | none => (p, [])

/-- Model of `Project::redo`, symmetric to `Project::undo`. -/
def ProjectState.redo (p : ProjectState) : ProjectState × List Effect :=
  match p.selected_corpus with
  | some selected =>
    let r := p.undoer.redo selected
    match r.1 with
    | some new_state =>
      ({ p with selected_corpus := some new_state, undoer := r.2 },
        [Effect.job "Redoing changes" (JobKind.reloadReplay new_state)])
    | none => ({ p with undoer := r.2 }, [])
  | none => (p, [])

/-- Model of `Project::has_undo`. -/
def ProjectState.has_undo (p : ProjectState) : Bool :=
  match p.selected_corpus with
  | some c => p.undoer.has_undo c
  | none => false

/-- Model of `Project::has_redo`. -/
def ProjectState.has_redo (p : ProjectState) : Bool :=
  match p.selected_corpus with
  | some c => p.undoer.has_redo c
  | none => false

theorem Undoer.undo_spec {u : Undoer} {c : Corpus} (h : u.has_undo c = true) :
    ∃ s u', u.undo c = (some s, u') ∧ u'.undos.head? = some s ∧
      u'.redos = c :: u.redos ∧ u'.maxUndos = u.maxUndos := by
  cases hu : u.undos with
  | nil =>
    rw [Undoer.has_undo, hu] at h
    cases h
  | cons a rest =>
    cases rest with
    | nil =>
      have hne : a ≠ c := by
        rw [Undoer.has_undo, hu] at h
        simpa using h
      refine ⟨a, { u with undos := [a], redos := c :: u.redos }, ?_, by simp, rfl, rfl⟩
      simp [Undoer.undo, h, hu, hne]
    | cons b rest' =>
      by_cases hac : a = c
      · refine ⟨b, { u with undos := b :: rest', redos := c :: u.redos }, ?_, by simp, rfl, rfl⟩
        simp [Undoer.undo, h, hu, hac]
      · refine ⟨a, { u with undos := a :: b :: rest', redos := c :: u.redos }, ?_, by simp,
          rfl, rfl⟩
        simp [Undoer.undo, h, hu, hac]

theorem Undoer.redo_after {u : Undoer} {s c : Corpus} {rest : List Corpus}
    (hhead : u.undos.head? = some s) (hredos : u.redos = c :: rest) :
    u.redo s = (some c, { u with undos := c :: u.undos, redos := rest }) := by
  have hne : ¬(u.undos ≠ [] ∧ u.undos.head? ≠ some s) := by
    rintro ⟨h1, h2⟩
    exact h2 hhead
  rw [Undoer.redo, if_neg hne, hredos]

/-- Claim C3: in any state with a selected corpus where `has_undo()` is
true, `undo()` immediately followed by `redo()` restores exactly the Corpus
value (name, location and ordered diff log) present before the `undo()`,
and the scheduled redo job reloads the baseline and replays exactly that
corpus's diff, so the reconstructed graph content matches as well. -/
theorem c3_undo_redo_roundtrip (p : ProjectState) (c : Corpus)
    (hsel : p.selected_corpus = some c) (hundo : p.has_undo = true) :
    (ProjectState.redo (ProjectState.undo p).1).1.selected_corpus = some c ∧
    (ProjectState.redo (ProjectState.undo p).1).2
      = [Effect.job "Redoing changes" (JobKind.reloadReplay c)] := by
  have hu : p.undoer.has_undo c = true := by
    rw [ProjectState.has_undo, hsel] at hundo
    exact hundo
  obtain ⟨s, u', hux, hhead, hredos, hmax⟩ := Undoer.undo_spec hu
  have hp1 : (ProjectState.undo p).1
      = { p with selected_corpus := some s, undoer := u' } := by
    simp [ProjectState.undo, hsel, hux]
  rw [hp1]
  have hredo : u'.redo s = (some c,
      { u' with undos := c :: u'.undos, redos := p.undoer.redos }) := by
    exact Undoer.redo_after hhead hredos
  simp [ProjectState.redo, hredo]

theorem select_corpus_go_has_undo (p : ProjectState) (selection : Option String) :
    (select_corpus_go p selection).1.has_undo = false := by
  cases selection with
  | none => simp [select_corpus_go, update_corpus_structure_job, ProjectState.has_undo]
  | some name =>
    cases hl : mapLookup name p.corpus_locations with
    | none =>
      simp [select_corpus_go, hl, update_corpus_structure_job, ProjectState.has_undo]
    | some location =>
      simp [select_corpus_go, hl, update_corpus_structure_job, ProjectState.has_undo,
        Undoer.add_undo, default_undoer, Undoer.has_undo]

/-- Claim C6: `has_undo()` is false immediately after `select_corpus`
completes for any newly selected corpus name (whenever the already-selected
no-op guard does not fire) and immediately after `persist_changes_on_exit`
completes successfully; and `has_undo`/`has_redo` never report a transition
that cannot be materialized — whenever they are true, `undo`/`redo` yield a
neighboring snapshot. -/
theorem c6_undo_flags (p q : ProjectState) (selection : Option String) :
    ((∀ c, p.selected_corpus = some c → selection ≠ some c.name) →
      (select_corpus p selection).1.has_undo = false) ∧
    ((persist_changes_on_exit q true).1.has_undo = false) ∧
    (∀ (u : Undoer) (cur : Corpus), u.has_undo cur = true →
      (u.undo cur).1.isSome = true) ∧
    (∀ (u : Undoer) (cur : Corpus), u.has_redo cur = true →
      (u.redo cur).1.isSome = true) := by
  refine ⟨?_, ?_, ?_, ?_⟩
  · intro hguard
    cases hsel : p.selected_corpus with
    | none => simp [select_corpus, hsel, select_corpus_go_has_undo]
    | some sc =>
      have hne : selection ≠ some sc.name := hguard sc hsel
      simp [select_corpus, hsel, hne, select_corpus_go_has_undo]
  · cases hsel : q.selected_corpus with
    | none => simp [persist_changes_on_exit, ProjectState.has_undo, hsel]
    | some c =>
      simp [persist_changes_on_exit, hsel, ProjectState.has_undo, default_undoer,
        Undoer.has_undo]
  · intro u cur h
    obtain ⟨s, u', hux, -, -, -⟩ := Undoer.undo_spec h
    simp [hux]
  · intro u cur h
    rw [Undoer.has_redo] at h
    obtain ⟨h1, h2⟩ := of_decide_eq_true h
    cases hr : u.redos with
    | nil => exact absurd hr h1
    | cons a rest =>
      rw [Undoer.redo_after h2 hr]
      simp

/-- Claim C8: selecting the corpus that is already selected changes
nothing — the state (selection, undo history, dirty flag, registry) is
returned unchanged and no job is scheduled and no toast raised. -/
theorem c8_select_selected_noop (p : ProjectState) (c : Corpus) (name : String)
    (hsel : p.selected_corpus = some c) (hname : c.name = name) :
    select_corpus p (some name) = (p, []) := by
  simp [select_corpus, hsel, hname]

/-- Claim C10: `select_corpus(Some(name))` for a name absent from the
corpus registry (with `name` not the already-selected corpus, so the no-op
guard does not fire) clears the previous selection, ends with no selection,
seeds no undo snapshot (the undo history is untouched), raises the
"Missing location" error toast, and still schedules the structural-refresh
job. -/
theorem c10_select_missing_location (p : ProjectState) (name : String)
    (hmiss : mapLookup name p.corpus_locations = none)
    (hguard : ∀ c, p.selected_corpus = some c → c.name ≠ name) :
    select_corpus p (some name) =
      ({ p with selected_corpus := none },
        [Effect.toastError ("Missing location for corpus " ++ name),
         Effect.job "Updating corpus selection" JobKind.updateCorpusStructure]) := by
  cases hsel : p.selected_corpus with
  | none =>
    simp [select_corpus, hsel, select_corpus_go, hmiss, update_corpus_structure_job]
  | some sc =>
    have hne : ¬(some name = some sc.name) := by
      intro h
      injection h with h
      exact hguard sc hsel h.symm
    simp [select_corpus, hsel, hne, select_corpus_go, hmiss, update_corpus_structure_job]

theorem select_corpus_none_fields (p : ProjectState) :
    (select_corpus p none).1.corpus_locations = p.corpus_locations ∧
    (select_corpus p none).1.selected_corpus = none := by
  cases hsel : p.selected_corpus <;>
    simp [select_corpus, hsel, select_corpus_go, update_corpus_structure_job]

/-- Statement of claim C7 at a given state and name: right after
`delete_corpus(name)` returns — before any job result has been delivered —
the registry entry for `name` is still present, since the claim says it is
removed only when the deletion job succeeds. -/
def c7Property (p : ProjectState) (name : String) : Prop :=
  (mapLookup name p.corpus_locations).isSome = true →
  mapLookup name (delete_corpus p name).1.corpus_locations
    = mapLookup name p.corpus_locations

/-- Project state for the C7 counterexample: nothing selected, one corpus
"doc" registered. -/
def c7proj : ProjectState :=
  { updates_pending := false, selected_corpus := none, scheduled_for_deletion := none,
    corpus_locations := [("doc", "loc0")], undoer := default_undoer }

/-- Counterexample to C7: `delete_corpus` removes the name from
`corpus_locations` synchronously when scheduling the deletion job, so the
entry is gone before the job has run (let alone succeeded). -/
theorem c7_counterexample : ¬ c7Property c7proj "doc" := by
  intro h
  exact absurd (h (by decide)) (by decide)

/-- Claim C7, amended: `delete_corpus(name)` first clears the selection if
`name` is selected and schedules the folder-deletion background job, but it
removes `name` from the corpus registry immediately when scheduling, not on
job success; the deletion job's success callback performs no state change
at all. -/
theorem c7_amended (p : ProjectState) (name location : String)
    (hwf : MapWF p.corpus_locations)
    (hloc : mapLookup name p.corpus_locations = some location) :
    mapLookup name (delete_corpus p name).1.corpus_locations = none ∧
    (∀ c, p.selected_corpus = some c → c.name = name →
      (delete_corpus p name).1.selected_corpus = none) ∧
    Effect.job (delete_job_title name location) (JobKind.deleteDir location)
      ∈ (delete_corpus p name).2 ∧
    (∀ q, delete_corpus_callback q = q) := by
  have hbase : ∃ eff, (match p.selected_corpus with
      | some selection =>
        if selection.name = name then select_corpus p none else (p, [])
      | none => (p, [])).1.corpus_locations = p.corpus_locations ∧
      (match p.selected_corpus with
      | some selection =>
        if selection.name = name then select_corpus p none else (p, [])
      | none => (p, [])) = ((match p.selected_corpus with
      | some selection =>
        if selection.name = name then select_corpus p none else (p, [])
      | none => (p, [])).1, eff) := by
    exact ⟨_, by
      cases hsel : p.selected_corpus with
      | none => simp
      | some sc =>
        by_cases hn : sc.name = name
        · simp [hn, (select_corpus_none_fields p).1]
        · simp [hn], rfl⟩
  obtain ⟨eff, hlocs, -⟩ := hbase
  refine ⟨?_, ?_, ?_, fun q => rfl⟩
  · rw [delete_corpus]
    simp only [hlocs, hloc]
    exact mapLookup_mapRemove_self name (hlocs ▸ hwf)
  · intro c hsel hname
    rw [delete_corpus]
    simp only [hlocs, hloc]
    simp only [hsel, hname, if_pos rfl]
    simp [(select_corpus_none_fields p).2, hlocs]
  · rw [delete_corpus]
    simp only [hlocs, hloc]
    simp

/-- Statement of claim C2 at a given state: after the drain that delivers
the changeset job's result, `updates_pending` is false in both the success
and the failure case. -/
def c2Property (p : ProjectState) (events : List UpdateEvent) : Prop :=
  p.selected_corpus.isSome = true →
  ∀ success : Bool,
    (deliver_changeset_result events success
      (add_changeset p events).1).1.updates_pending = false

/-- Project state for the C2 counterexample: corpus "doc" selected, clean. -/
def c2proj : ProjectState :=
  { updates_pending := false,
    selected_corpus := some (Corpus.new "doc" "loc0"),
    scheduled_for_deletion := none,
    corpus_locations := [("doc", "loc0")],
    undoer := Undoer.add_undo default_undoer (Corpus.new "doc" "loc0") }

/-- Counterexample to C2: when the changeset job fails, the drain only
reports the error; nothing clears `updates_pending`, which was set at
scheduling time, so it is still true after the failure is delivered. -/
theorem c2_counterexample : ¬ c2Property c2proj [1] := by
  intro h
  exact absurd (h (by decide) false) (by decide)

/-- Claim C2, amended: scheduling a changeset with a corpus selected sets
the dirty flag; the flag is cleared again when the job's success callback
runs during a drain, but when the worker fails the drain only reports the
error and `updates_pending` remains set. -/
theorem c2_amended (p : ProjectState) (events : List UpdateEvent)
    (hsel : p.selected_corpus.isSome = true) :
    (add_changeset p events).1.updates_pending = true ∧
    (deliver_changeset_result events true
      (add_changeset p events).1).1.updates_pending = false ∧
    (deliver_changeset_result events false
      (add_changeset p events).1).1.updates_pending = true := by
  obtain ⟨c, hc⟩ := Option.isSome_iff_exists.mp hsel
  refine ⟨?_, ?_, ?_⟩ <;>
    simp [add_changeset, deliver_changeset_result, add_changeset_callback,
      update_corpus_structure_job, hc]

/-- Witness for the amended C2 at a concrete input. -/
theorem c2_amended_witness :
    (add_changeset c2proj [1]).1.updates_pending = true ∧
    (deliver_changeset_result [1] true
      (add_changeset c2proj [1]).1).1.updates_pending = false ∧
    (deliver_changeset_result [1] false
      (add_changeset c2proj [1]).1).1.updates_pending = true :=
  c2_amended c2proj [1] (by decide)

/-- Statement of claim C4 at a given state: persisting via
`persist_changes_on_exit` clears the selected corpus's diff log and resets
the undo history to a single clean snapshot of the persisted corpus. -/
def c4Property (p : ProjectState) : Prop :=
  ∀ c, p.selected_corpus = some c →
    (persist_changes_on_exit p true).1.selected_corpus
        = some { c with diff_to_last_save := [] } ∧
    (persist_changes_on_exit p true).1.undoer.undos
        = [{ c with diff_to_last_save := [] }]

/-- Project state for the C4 counterexample: corpus "doc" selected with a
non-empty diff log. -/
def c4proj : ProjectState :=
  { updates_pending := false,
    selected_corpus := some { name := "doc", location := "loc0", diff_to_last_save := [1] },
    scheduled_for_deletion := none,
    corpus_locations := [("doc", "loc0")],
    undoer := Undoer.add_undo default_undoer
      { name := "doc", location := "loc0", diff_to_last_save := [1] } }

/-- Counterexample to C4: `persist_changes_on_exit` leaves the diff log
untouched ([1], not cleared) and resets the undo history to the empty
default, which holds zero snapshots rather than a single clean one. -/
theorem c4_counterexample : ¬ c4Property c4proj := by
  intro h
  exact absurd (h _ rfl).1 (by decide)

/-- Claim C4, amended: `persist_changes_on_exit` writes the graph back to
its baseline location but leaves the selected corpus — including its
`diff_to_last_save` log — unchanged, and resets the undo history to the
empty default (zero snapshots); the diff log is cleared, and a single clean
snapshot seeded, only by `load_after_init` at the next startup. -/
theorem c4_amended (p q : ProjectState) (c d : Corpus)
    (hsel : p.selected_corpus = some c)
    (hqsel : q.selected_corpus = some d) (hq : q.undoer = default_undoer) :
    (persist_changes_on_exit p true).1.selected_corpus = some c ∧
    (persist_changes_on_exit p true).1.undoer = default_undoer ∧
    (load_after_init q).1.selected_corpus = some { d with diff_to_last_save := [] } ∧
    (load_after_init q).1.undoer.undos = [{ d with diff_to_last_save := [] }] := by
  refine ⟨?_, ?_, ?_, ?_⟩ <;>
    simp [persist_changes_on_exit, load_after_init, update_corpus_structure_job,
      Undoer.add_undo, default_undoer, hsel, hqsel, hq]

/-- Project state for the C4 witness's restart part: a corpus selected with
a stale diff (as restored from the persisted application state) and the
undo history at its default. -/
def c4restart : ProjectState :=
  { updates_pending := false,
    selected_corpus := some { name := "doc", location := "loc0", diff_to_last_save := [2] },
    scheduled_for_deletion := none,
    corpus_locations := [("doc", "loc0")],
    undoer := default_undoer }

/-- Witness for the amended C4 at a concrete input. -/
theorem c4_amended_witness :
    (persist_changes_on_exit c4proj true).1.selected_corpus
        = some { name := "doc", location := "loc0", diff_to_last_save := [1] } ∧
    (persist_changes_on_exit c4proj true).1.undoer = default_undoer ∧
    (load_after_init c4restart).1.selected_corpus = some (Corpus.new "doc" "loc0") ∧
    (load_after_init c4restart).1.undoer.undos = [Corpus.new "doc" "loc0"] :=
  c4_amended c4proj c4restart
    { name := "doc", location := "loc0", diff_to_last_save := [1] }
    { name := "doc", location := "loc0", diff_to_last_save := [2] } rfl rfl rfl

/-- Clean snapshot of corpus "doc" for the C3 witness. -/
def c3corpus0 : Corpus := Corpus.new "doc" "loc0"

/-- Snapshot of corpus "doc" after one changeset, for the C3 witness. -/
def c3corpus1 : Corpus := { name := "doc", location := "loc0", diff_to_last_save := [5] }

/-- Project state for the C3 witness: corpus "doc" selected after one
changeset, with a two-snapshot undo history. -/
def c3proj : ProjectState :=
  { updates_pending := false, selected_corpus := some c3corpus1,
    scheduled_for_deletion := none, corpus_locations := [("doc", "loc0")],
    undoer := Undoer.add_undo (Undoer.add_undo default_undoer c3corpus0) c3corpus1 }

/-- Witness for C3 at a concrete input. -/
theorem c3_witness :
    (ProjectState.redo (ProjectState.undo c3proj).1).1.selected_corpus = some c3corpus1 ∧
    (ProjectState.redo (ProjectState.undo c3proj).1).2
      = [Effect.job "Redoing changes" (JobKind.reloadReplay c3corpus1)] :=
  c3_undo_redo_roundtrip c3proj c3corpus1 rfl (by decide)

/-- Undoer with an available redo step, for the C6 witness. -/
def c6redoer : Undoer := { maxUndos := 10, undos := [c3corpus0], redos := [c3corpus1] }

/-- Witness for C6 at concrete inputs. -/
theorem c6_witness :
    (select_corpus c7proj (some "doc")).1.has_undo = false ∧
    (persist_changes_on_exit c2proj true).1.has_undo = false ∧
    (Undoer.undo c3proj.undoer c3corpus1).1.isSome = true ∧
    (Undoer.redo c6redoer c3corpus0).1.isSome = true := by
  have h := c6_undo_flags c7proj c2proj (some "doc")
  exact ⟨h.1 (fun c hc => Option.noConfusion hc), h.2.1,
    h.2.2.1 c3proj.undoer c3corpus1 (by decide),
    h.2.2.2 c6redoer c3corpus0 (by decide)⟩

/-- Witness for the amended C7 at a concrete input. -/
theorem c7_amended_witness :
    mapLookup "doc" (delete_corpus c7proj "doc").1.corpus_locations = none ∧
    Effect.job (delete_job_title "doc" "loc0") (JobKind.deleteDir "loc0")
      ∈ (delete_corpus c7proj "doc").2 ∧
    delete_corpus_callback c7proj = c7proj := by
  have h := c7_amended c7proj "doc" "loc0" (by simp [c7proj, MapWF]) (by decide)
  exact ⟨h.1, h.2.2.1, h.2.2.2 c7proj⟩

/-- Witness for C8 at a concrete input. -/
theorem c8_witness : select_corpus c2proj (some "doc") = (c2proj, []) :=
  c8_select_selected_noop c2proj (Corpus.new "doc" "loc0") "doc" rfl rfl

/-- Witness for C10 at a concrete input. -/
theorem c10_witness :
    select_corpus c2proj (some "missing") =
      ({ c2proj with selected_corpus := none },
        [Effect.toastError ("Missing location for corpus " ++ "missing"),
         Effect.job "Updating corpus selection" JobKind.updateCorpusStructure]) :=
  c10_select_missing_location c2proj "missing" (by decide)
    (fun c hc => by
      injection hc with h
      rw [← h]
      decide)
